import Mathlib

/-!
Verification of the pixelated-STEM analysis engine (geometry engine,
frame reducer, radial/angular binner, defect engine, execution adapter).

The engine's numeric core is modelled from the specification; the
repository's own test suites (`test_pixelated_stem_tools.py`,
`test_pixelated_stem_class.py`) pin the observable behaviour and are
followed wherever they constrain a choice.  Intensities and centre
coordinates are exact rationals; the per-pixel integer radius is the
floored Euclidean distance, computed exactly.
-/

set_option allowUnsafeReducibility true in
attribute [semireducible] Rat.add Rat.mul Rat.sub Rat.div Rat.inv Rat.neg

namespace Pixstem

/-! ## Geometry engine -/

/-- Distance between two naturals, `|a - b|`. -/
def natDist (a b : ℕ) : ℕ := max a b - min a b

/-- Squared Euclidean distance between the integer points `(cx, cy)` and
`(px, py)`. -/
def cornerDistSq (cx cy px py : ℕ) : ℕ := natDist cx px ^ 2 + natDist cy py ^ 2

/-- Kernel-computable integer square root: the number of `j < n + 1` with
`(j + 1)² ≤ n`, which is `⌊√n⌋`. -/
def natSqrt (n : ℕ) : ℕ :=
  ((Finset.range (n + 1)).filter fun j => (j + 1) * (j + 1) ≤ n).card

/-- `natSqrt` agrees with `Nat.sqrt`. -/
theorem natSqrt_eq (n : ℕ) : natSqrt n = Nat.sqrt n := by
  unfold natSqrt
  have hset : ((Finset.range (n + 1)).filter fun j => (j + 1) * (j + 1) ≤ n)
      = Finset.range (Nat.sqrt n) := by
    ext j
    simp only [Finset.mem_filter, Finset.mem_range]
    constructor
    · rintro ⟨_, h2⟩
      have := Nat.le_sqrt.mpr h2
      omega
    · intro hj
      have h1 : j + 1 ≤ Nat.sqrt n := hj
      refine ⟨?_, Nat.le_sqrt.mp h1⟩
      have := Nat.sqrt_le_self n
      omega
  rw [hset, Finset.card_range]

/-- Modelled from the spec: `_find_longest_distance(imX, imY, cx_min, cx_max,
cy_min, cy_max)` (§4.1).  The maximum, over the four image corners
`(0,0), (W,0), (0,H), (W,H)` and over centres ranging in
`[cx_min, cx_max] × [cy_min, cy_max]`, of the Euclidean corner-to-centre
distance, truncated to an integer via floor.  The maximal horizontal offset
from a centre in range to a corner x-coordinate is `max cx_max (W - cx_min)`,
and similarly vertically, so the floored maximum is the integer square root
of the sum of the squares of those two extremes. -/
def find_longest_distance (W H cxmin cxmax cymin cymax : ℕ) : ℕ :=
  natSqrt ((max cxmax (W - cxmin)) ^ 2 + (max cymax (H - cymin)) ^ 2)

/-! ## Floored square root of a rational

`ratFloorSqrt q` is `⌊√q⌋` for a nonnegative rational `q`, computed exactly:
`⌊√(n/d)⌋ = ⌊⌊√(n·d)⌋ / d⌋`. -/

/-- Floor of the square root of a nonnegative rational. -/
def ratFloorSqrt (q : ℚ) : ℕ := natSqrt (q.num.toNat * q.den) / q.den

/-- Characterisation of `ratFloorSqrt`: for `0 ≤ q`, a natural `k` is at most
`⌊√q⌋` exactly when `k² ≤ q`. -/
theorem le_ratFloorSqrt_iff (q : ℚ) (hq : 0 ≤ q) (k : ℕ) :
    k ≤ ratFloorSqrt q ↔ ((k : ℚ)) ^ 2 ≤ q := by
  have hd : 0 < q.den := q.pos
  have hnum : (0 : ℤ) ≤ q.num := Rat.num_nonneg.mpr hq
  unfold ratFloorSqrt
  rw [natSqrt_eq, Nat.le_div_iff_mul_le hd, Nat.le_sqrt]
  have hstep : k * q.den * (k * q.den) ≤ q.num.toNat * q.den ↔
      k ^ 2 * q.den ≤ q.num.toNat := by
    constructor
    · intro h
      have h' : k ^ 2 * q.den * q.den ≤ q.num.toNat * q.den := by
        calc k ^ 2 * q.den * q.den = k * q.den * (k * q.den) := by ring
          _ ≤ q.num.toNat * q.den := h
      exact Nat.le_of_mul_le_mul_right h' hd
    · intro h
      calc k * q.den * (k * q.den) = k ^ 2 * q.den * q.den := by ring
        _ ≤ q.num.toNat * q.den := Nat.mul_le_mul_right _ h
  rw [hstep]
  have hdenQ : (0 : ℚ) < (q.den : ℚ) := by exact_mod_cast hd
  have hqd : q * (q.den : ℚ) = (q.num : ℚ) := by
    have h0 := Rat.num_div_den q
    rw [div_eq_iff (ne_of_gt hdenQ)] at h0
    exact h0.symm
  have hnum' : ((q.num.toNat : ℕ) : ℚ) = (q.num : ℚ) := by
    exact_mod_cast congrArg (fun z : ℤ => (z : ℚ)) (Int.toNat_of_nonneg hnum)
  constructor
  · intro h
    have hc : ((k ^ 2 * q.den : ℕ) : ℚ) ≤ ((q.num.toNat : ℕ) : ℚ) := by exact_mod_cast h
    rw [hnum'] at hc
    push_cast at hc
    rw [← hqd] at hc
    exact le_of_mul_le_mul_right hc hdenQ
  · intro h
    have hc : ((k : ℚ)) ^ 2 * (q.den : ℚ) ≤ (q.num : ℚ) := by
      calc ((k : ℚ)) ^ 2 * (q.den : ℚ) ≤ q * (q.den : ℚ) :=
            mul_le_mul_of_nonneg_right h (le_of_lt hdenQ)
        _ = (q.num : ℚ) := hqd
    rw [← hnum'] at hc
    exact_mod_cast hc

/-- `ratFloorSqrt` is monotone on nonnegative rationals. -/
theorem ratFloorSqrt_mono {q q' : ℚ} (hq : 0 ≤ q) (h : q ≤ q') :
    ratFloorSqrt q ≤ ratFloorSqrt q' := by
  have hq' : 0 ≤ q' := le_trans hq h
  rw [le_ratFloorSqrt_iff q' hq']
  exact le_trans ((le_ratFloorSqrt_iff q hq _).mp le_rfl) h

/-- On squares of naturals, `ratFloorSqrt` recovers the natural number. -/
theorem ratFloorSqrt_sq (r : ℕ) : ratFloorSqrt (((r : ℚ)) ^ 2) = r := by
  have h1 : r ≤ ratFloorSqrt (((r : ℚ)) ^ 2) := by
    rw [le_ratFloorSqrt_iff _ (by positivity)]
  have h2 : ¬ (r + 1 ≤ ratFloorSqrt (((r : ℚ)) ^ 2)) := by
    rw [le_ratFloorSqrt_iff _ (by positivity)]
    push_neg
    have hlt : (r : ℚ) < ((r + 1 : ℕ) : ℚ) := by exact_mod_cast Nat.lt_succ_self r
    exact pow_lt_pow_left₀ hlt (by positivity) (by norm_num)
  omega

/-- The per-pixel integer radius: the floored Euclidean distance from the
pixel `(px, py)` to the (possibly fractional) centre `(cx, cy)`.  This is the
bin index used by the radial binner (`r = floor(hypot(px - cx, py - cy))`). -/
def intRadius (px py : ℕ) (cx cy : ℚ) : ℕ :=
  ratFloorSqrt (((px : ℚ) - cx) ^ 2 + ((py : ℚ) - cy) ^ 2)

/-- Rational-centre variant of the longest-distance computation, used by the
radial binner to size its output profiles when centres are fractional or
vary per navigation position. -/
def find_longest_distanceQ (W H : ℕ) (cxmin cxmax cymin cymax : ℚ) : ℕ :=
  ratFloorSqrt ((max cxmax ((W : ℚ) - cxmin)) ^ 2 + (max cymax ((H : ℚ) - cymin)) ^ 2)

/-- Every pixel inside a `W × H` frame has integer radius at most the
longest-distance bound, for any centre inside the given centre range. -/
theorem intRadius_le_longest (W H px py : ℕ) (cx cy cxmin cxmax cymin cymax : ℚ)
    (hpx : px < W) (hpy : py < H)
    (h1 : cxmin ≤ cx) (h2 : cx ≤ cxmax) (h3 : cymin ≤ cy) (h4 : cy ≤ cymax) :
    intRadius px py cx cy ≤ find_longest_distanceQ W H cxmin cxmax cymin cymax := by
  unfold intRadius find_longest_distanceQ
  apply ratFloorSqrt_mono (by positivity)
  have hA : ((px : ℚ) - cx) ^ 2 ≤ (max cxmax ((W : ℚ) - cxmin)) ^ 2 := by
    apply sq_le_sq'
    · have : -(max cxmax ((W : ℚ) - cxmin)) ≤ -cxmax := by
        simp [neg_le_neg_iff, le_max_left]
      calc -(max cxmax ((W : ℚ) - cxmin)) ≤ -cxmax := this
        _ ≤ -cx := by linarith
        _ ≤ (px : ℚ) - cx := by
            have : (0 : ℚ) ≤ (px : ℚ) := by positivity
            linarith
    · have hW : (px : ℚ) ≤ (W : ℚ) := by
        have : (px : ℚ) < (W : ℚ) := by exact_mod_cast hpx
        linarith
      calc (px : ℚ) - cx ≤ (W : ℚ) - cxmin := by linarith
        _ ≤ max cxmax ((W : ℚ) - cxmin) := le_max_right _ _
  have hB : ((py : ℚ) - cy) ^ 2 ≤ (max cymax ((H : ℚ) - cymin)) ^ 2 := by
    apply sq_le_sq'
    · have : -(max cymax ((H : ℚ) - cymin)) ≤ -cymax := by
        simp [neg_le_neg_iff, le_max_left]
      calc -(max cymax ((H : ℚ) - cymin)) ≤ -cymax := this
        _ ≤ -cy := by linarith
        _ ≤ (py : ℚ) - cy := by
            have : (0 : ℚ) ≤ (py : ℚ) := by positivity
            linarith
    · have hH : (py : ℚ) ≤ (H : ℚ) := by
        have : (py : ℚ) < (H : ℚ) := by exact_mod_cast hpy
        linarith
      calc (py : ℚ) - cy ≤ (H : ℚ) - cymin := by linarith
        _ ≤ max cymax ((H : ℚ) - cymin) := le_max_right _ _
  linarith

/-! ## Data model: frames and datasets

A frame is a `W × H` grid of rational intensities, presented as a function of
the pixel coordinates `(px, py)` with `px < W`, `py < H`.  A dataset is a
frame shape plus a flat list of frames, one per navigation position. -/

/-- All pixel coordinates of a `W × H` frame. -/
def pixList (W H : ℕ) : List (ℕ × ℕ) :=
  (List.range W).flatMap fun px => (List.range H).map fun py => (px, py)

/-- A dataset: the common frame shape and one frame per navigation position
(navigation axes flattened into a list). -/
structure Dataset where
  W : ℕ
  H : ℕ
  frames : List (ℕ → ℕ → ℚ)

/-- The all-`true` mask (no pixel restriction). -/
def trivMask : ℕ → ℕ → Bool := fun _ _ => true

/-! ## Radial binner -/

/-- The pixels contributing to radial bin `k`: integer radius `k` from the
centre and selected by the boolean mask (`true` = included, as pinned by
`TestPixelatedStemAngleSector.test_get_angle_sector_mask_radial_integration1`). -/
def binPred (cx cy : ℚ) (mask : ℕ → ℕ → Bool) (k : ℕ) : ℕ × ℕ → Bool :=
  fun p => (decide (intRadius p.1 p.2 cx cy = k)) && mask p.1 p.2

/-- Number of pixels of a `W × H` frame contributing to radial bin `k`. -/
def binCountM (W H : ℕ) (mask : ℕ → ℕ → Bool) (cx cy : ℚ) (k : ℕ) : ℕ :=
  (pixList W H).countP (binPred cx cy mask k)

/-- Summed intensity of the pixels contributing to radial bin `k`. -/
def binSumM (W H : ℕ) (f : ℕ → ℕ → ℚ) (mask : ℕ → ℕ → Bool) (cx cy : ℚ) (k : ℕ) : ℚ :=
  (((pixList W H).filter (binPred cx cy mask k)).map fun p => f p.1 p.2).sum

/-- Modelled from the spec: the radial profile of one frame (§4.3).  Bin `k`
holds the mean intensity of the pixels whose floored distance from the centre
is `k` (sum normalised by count); bins no pixel maps to hold the fill value
`0`. -/
def radialProfileMasked (W H : ℕ) (f : ℕ → ℕ → ℚ) (mask : ℕ → ℕ → Bool)
    (cx cy : ℚ) (len : ℕ) : List ℚ :=
  (List.range len).map fun k =>
    if binCountM W H mask cx cy k = 0 then 0
    else binSumM W H f mask cx cy k / (binCountM W H mask cx cy k : ℚ)

/-- Minimum of a list of rationals (`0` for the empty list). -/
def qListMin : List ℚ → ℚ
  | [] => 0
  | x :: xs => xs.foldl min x

/-- Maximum of a list of rationals (`0` for the empty list). -/
def qListMax : List ℚ → ℚ
  | [] => 0
  | x :: xs => xs.foldl max x

/-- Modelled from the spec: the common output length of the radial profiles,
`longest_distance + 1`, computed from the ranges of the per-position centre
arrays so that every position's farthest pixel fits (§4.1, §4.3). -/
def profileLen (W H : ℕ) (centres : List (ℚ × ℚ)) : ℕ :=
  find_longest_distanceQ W H
    (qListMin (centres.map Prod.fst)) (qListMax (centres.map Prod.fst))
    (qListMin (centres.map Prod.snd)) (qListMax (centres.map Prod.snd)) + 1

/-- Modelled from the spec: `radial_integration` (§4.3).  Each navigation
position is binned with its own centre; all positions share the profile
length derived from the centre ranges. -/
def radial_integration (ds : Dataset) (centres : List (ℚ × ℚ)) : List (List ℚ) :=
  (ds.frames.zip centres).map fun fc =>
    radialProfileMasked ds.W ds.H fc.1 trivMask fc.2.1 fc.2.2 (profileLen ds.W ds.H centres)

/-- Modelled from the spec: `radial_integration` with a per-position boolean
`mask_array` (§4.3).  The repository's tests pin that the mask SELECTS pixels
(`true` = included in the accumulation). -/
def radial_integration_masked (ds : Dataset) (centres : List (ℚ × ℚ))
    (masks : List (ℕ → ℕ → Bool)) : List (List ℚ) :=
  ((ds.frames.zip centres).zip masks).map fun fcm =>
    radialProfileMasked ds.W ds.H fcm.1.1 fcm.2 fcm.1.2.1 fcm.1.2.2
      (profileLen ds.W ds.H centres)

/-- A synthetic ring of integer radius `r` around the centre: intensity `I`
exactly on the pixels whose integer radius is `r`, `0` elsewhere. -/
def ringFrame (cx cy : ℚ) (r : ℕ) (I : ℚ) : ℕ → ℕ → ℚ :=
  fun px py => if intRadius px py cx cy = r then I else 0

/-- Index of the first maximum of a list (numpy's `argmax`); `0` on `[]`. -/
def listArgmax : List ℚ → ℕ
  | [] => 0
  | x :: xs => if xs.getD (listArgmax xs) 0 > x then listArgmax xs + 1 else 0

/-! ## Helper lemmas -/

theorem mem_pixList (W H px py : ℕ) :
    (px, py) ∈ pixList W H ↔ px < W ∧ py < H := by
  simp [pixList, List.mem_flatMap, List.mem_map, List.mem_range]

theorem getD_range_map (g : ℕ → ℚ) (len k : ℕ) (hk : k < len) :
    (((List.range len).map g).getD k 0) = g k := by
  rw [List.getD_eq_getElem?_getD]
  simp [List.getElem?_map, List.getElem?_range, hk]

theorem foldl_min_le_init (xs : List ℚ) (z : ℚ) : xs.foldl min z ≤ z := by
  induction xs generalizing z with
  | nil => exact le_refl z
  | cons y ys ih =>
    simp only [List.foldl_cons]
    exact le_trans (ih (min z y)) (min_le_left z y)

theorem foldl_min_le (xs : List ℚ) (x a : ℚ) (ha : a = x ∨ a ∈ xs) :
    xs.foldl min x ≤ a := by
  induction xs generalizing x with
  | nil =>
    rcases ha with rfl | h
    · exact le_refl a
    · simp at h
  | cons y ys ih =>
    simp only [List.foldl_cons]
    rcases ha with rfl | h
    · exact le_trans (foldl_min_le_init ys (min a y)) (min_le_left a y)
    · rcases List.mem_cons.mp h with rfl | h'
      · exact le_trans (foldl_min_le_init ys (min x a)) (min_le_right x a)
      · exact ih (min x y) (Or.inr h')

theorem le_foldl_max_init (xs : List ℚ) (z : ℚ) : z ≤ xs.foldl max z := by
  induction xs generalizing z with
  | nil => exact le_refl z
  | cons y ys ih =>
    simp only [List.foldl_cons]
    exact le_trans (le_max_left z y) (ih (max z y))

theorem le_foldl_max (xs : List ℚ) (x a : ℚ) (ha : a = x ∨ a ∈ xs) :
    a ≤ xs.foldl max x := by
  induction xs generalizing x with
  | nil =>
    rcases ha with rfl | h
    · exact le_refl a
    · simp at h
  | cons y ys ih =>
    simp only [List.foldl_cons]
    rcases ha with rfl | h
    · exact le_trans (le_max_left a y) (le_foldl_max_init ys (max a y))
    · rcases List.mem_cons.mp h with rfl | h'
      · exact le_trans (le_max_right x a) (le_foldl_max_init ys (max x a))
      · exact ih (max x y) (Or.inr h')

theorem qListMin_le (l : List ℚ) (a : ℚ) (ha : a ∈ l) : qListMin l ≤ a := by
  cases l with
  | nil => simp at ha
  | cons x xs =>
    exact foldl_min_le xs x a (by simpa [List.mem_cons, eq_comm] using ha)

theorem le_qListMax (l : List ℚ) (a : ℚ) (ha : a ∈ l) : a ≤ qListMax l := by
  cases l with
  | nil => simp at ha
  | cons x xs =>
    exact le_foldl_max xs x a (by simpa [List.mem_cons, eq_comm] using ha)

theorem sum_map_const {α : Type} (l : List α) (g : α → ℚ) (v : ℚ)
    (h : ∀ x ∈ l, g x = v) : (l.map g).sum = v * l.length := by
  induction l with
  | nil => simp
  | cons x xs ih =>
    simp only [List.map_cons, List.sum_cons, List.length_cons]
    rw [h x (List.mem_cons_self x xs), ih fun y hy => h y (List.mem_cons_of_mem x hy)]
    push_cast
    ring

/-- `listArgmax` returns the index of a strict-first maximum: if `l.getD r 0`
is nonnegative, dominates every entry, and strictly dominates every earlier
entry, then the argmax is `r`. -/
theorem listArgmax_spec (l : List ℚ) (r : ℕ) (hr : r < l.length)
    (h0 : 0 ≤ l.getD r 0)
    (hmax : ∀ j, j < l.length → l.getD j 0 ≤ l.getD r 0)
    (hfirst : ∀ j, j < r → l.getD j 0 < l.getD r 0) :
    listArgmax l = r := by
  induction l generalizing r with
  | nil => simp at hr
  | cons x xs ih =>
    simp only [listArgmax]
    cases r with
    | zero =>
      have hcond : ¬ (xs.getD (listArgmax xs) 0 > x) := by
        by_cases hj : listArgmax xs < xs.length
        · have h := hmax (listArgmax xs + 1) (by
            simp only [List.length_cons]
            omega)
          simp only [List.getD_cons_succ, List.getD_cons_zero] at h
          exact not_lt.mpr h
        · have hd : xs.getD (listArgmax xs) 0 = 0 :=
            List.getD_eq_default _ _ (le_of_not_lt hj)
          rw [hd]
          exact not_lt.mpr (by simpa using h0)
      rw [if_neg hcond]
    | succ r' =>
      have hr' : r' < xs.length := by
        simp only [List.length_cons] at hr
        omega
      have hxlt : x < xs.getD r' 0 := by
        have h := hfirst 0 (Nat.succ_pos r')
        simpa using h
      have hih : listArgmax xs = r' := by
        apply ih r' hr'
        · simpa using h0
        · intro j hj
          have h := hmax (j + 1) (by simp only [List.length_cons]; omega)
          simpa using h
        · intro j hj
          have h := hfirst (j + 1) (Nat.succ_lt_succ hj)
          simpa using h
      rw [hih, if_pos hxlt]

/-- The summed intensity of a ring frame in bin `k`: intensity `I` per pixel
in bin `r`, nothing anywhere else. -/
theorem binSumM_ringFrame (W H : ℕ) (cx cy : ℚ) (r : ℕ) (I : ℚ) (k : ℕ) :
    binSumM W H (ringFrame cx cy r I) trivMask cx cy k =
      if k = r then I * (binCountM W H trivMask cx cy k : ℚ) else 0 := by
  unfold binSumM binCountM
  rw [List.countP_eq_length_filter]
  by_cases hkr : k = r
  · subst hkr
    rw [if_pos rfl]
    apply sum_map_const
    intro p hp
    have hm := (List.mem_filter.mp hp).2
    unfold binPred at hm
    simp only [Bool.and_eq_true, decide_eq_true_eq] at hm
    unfold ringFrame
    rw [if_pos hm.1]
  · rw [if_neg hkr]
    have h0 : ∀ p ∈ (pixList W H).filter (binPred cx cy trivMask k),
        ringFrame cx cy r I p.1 p.2 = 0 := by
      intro p hp
      have hm := (List.mem_filter.mp hp).2
      unfold binPred at hm
      simp only [Bool.and_eq_true, decide_eq_true_eq] at hm
      unfold ringFrame
      rw [if_neg (hm.1 ▸ hkr)]
    rw [sum_map_const _ _ 0 h0, zero_mul]

/-- Value of the radial profile of a ring frame at bin `k`:
`I` exactly at the populated ring bin, `0` everywhere else. -/
theorem radialProfileMasked_ring_getD (W H : ℕ) (cx cy : ℚ) (r : ℕ) (I : ℚ)
    (len k : ℕ) (hk : k < len) :
    (radialProfileMasked W H (ringFrame cx cy r I) trivMask cx cy len).getD k 0 =
      if k = r ∧ binCountM W H trivMask cx cy k ≠ 0 then I else 0 := by
  unfold radialProfileMasked
  rw [getD_range_map _ _ _ hk]
  by_cases hc : binCountM W H trivMask cx cy k = 0
  · rw [if_pos hc, if_neg fun h => h.2 hc]
  · rw [if_neg hc, binSumM_ringFrame]
    by_cases hkr : k = r
    · rw [if_pos hkr, if_pos ⟨hkr, hc⟩, mul_div_assoc,
        div_self (by exact_mod_cast hc), mul_one]
    · rw [if_neg hkr, if_neg fun h => hkr h.1, zero_div]

/-- Length of a radial profile. -/
theorem radialProfileMasked_length (W H : ℕ) (f : ℕ → ℕ → ℚ)
    (mask : ℕ → ℕ → Bool) (cx cy : ℚ) (len : ℕ) :
    (radialProfileMasked W H f mask cx cy len).length = len := by
  unfold radialProfileMasked
  rw [List.length_map, List.length_range]

/-- The argmax of the radial profile of a ring frame of radius `r` is `r`,
provided the ring intensity is positive, `r` fits in the profile, and the
ring bin is populated. -/
theorem ring_profile_argmax (W H : ℕ) (cx cy : ℚ) (r : ℕ) (I : ℚ) (hI : 0 < I)
    (len : ℕ) (hr : r < len)
    (hne : binCountM W H trivMask cx cy r ≠ 0) :
    listArgmax (radialProfileMasked W H (ringFrame cx cy r I) trivMask cx cy len) = r := by
  have hval : ∀ k, k < len →
      (radialProfileMasked W H (ringFrame cx cy r I) trivMask cx cy len).getD k 0 =
        if k = r ∧ binCountM W H trivMask cx cy k ≠ 0 then I else 0 :=
    fun k hk => radialProfileMasked_ring_getD W H cx cy r I len k hk
  have hlen := radialProfileMasked_length W H (ringFrame cx cy r I) trivMask cx cy len
  have hvr : (radialProfileMasked W H (ringFrame cx cy r I) trivMask cx cy len).getD r 0 = I := by
    rw [hval r hr, if_pos ⟨rfl, hne⟩]
  apply listArgmax_spec _ r (by rw [hlen]; exact hr)
  · rw [hvr]; exact le_of_lt hI
  · intro j hj
    rw [hvr, hval j (by rwa [hlen] at hj)]
    split
    · exact le_rfl
    · exact le_of_lt hI
  · intro j hj
    rw [hvr, hval j (lt_trans hj hr), if_neg fun h => (Nat.ne_of_lt hj) h.1]
    exact hI

/-- A populated pixel makes its radial bin count nonzero. -/
theorem binCountM_ne_zero (W H px py : ℕ) (cx cy : ℚ) (k : ℕ)
    (hpx : px < W) (hpy : py < H) (hk : intRadius px py cx cy = k) :
    binCountM W H trivMask cx cy k ≠ 0 := by
  have hpos : 0 < (pixList W H).countP (binPred cx cy trivMask k) := by
    rw [List.countP_pos_iff]
    refine ⟨(px, py), (mem_pixList W H px py).mpr ⟨hpx, hpy⟩, ?_⟩
    unfold binPred trivMask
    simp [hk]
  unfold binCountM
  omega

/-- Claim C1: on a dataset whose frame at every navigation position is a
synthetic ring of integer radius `radii[p]` (positive intensity `I`) around
that position's centre `centres[p]`, `radial_integration` called with the
matching per-position centre arrays returns, at every navigation position,
a radial profile whose argmax over the radial axis is bin `radii[p]`.
The hypothesis `hring` states that the ring is nonempty: some pixel of the
frame lies at integer radius `radii[p]` from the position's centre. -/
theorem radial_integration_ring_argmax
    (W H : ℕ) (I : ℚ) (centres : List (ℚ × ℚ)) (radii : List ℕ)
    (hI : 0 < I)
    (hlen : radii.length = centres.length)
    (hring : ∀ p, p < centres.length →
      ∃ px py, px < W ∧ py < H ∧
        intRadius px py (centres.getD p (0, 0)).1 (centres.getD p (0, 0)).2
          = radii.getD p 0) :
    ∀ p, p < centres.length →
      listArgmax ((radial_integration
          ⟨W, H, (centres.zip radii).map fun cr => ringFrame cr.1.1 cr.1.2 cr.2 I⟩
          centres).getD p []) = radii.getD p 0 := by
  intro p hp
  have hzlen : (centres.zip radii).length = centres.length := by
    rw [List.length_zip, hlen, min_self]
  have hflen : ((centres.zip radii).map fun cr =>
      ringFrame cr.1.1 cr.1.2 cr.2 I).length = centres.length := by
    rw [List.length_map, hzlen]
  have hp' : p < (((centres.zip radii).map fun cr =>
      ringFrame cr.1.1 cr.1.2 cr.2 I).zip centres).length := by
    rw [List.length_zip, hflen, min_self]
    exact hp
  have hpz : p < (centres.zip radii).length := by rw [hzlen]; exact hp
  have hpr : p < radii.length := by rw [hlen]; exact hp
  have hgetc : centres.getD p (0, 0) = centres[p] := List.getD_eq_getElem centres (0, 0) hp
  have hgetr : radii.getD p 0 = radii[p] := List.getD_eq_getElem radii 0 hpr
  have hmain : (radial_integration
      ⟨W, H, (centres.zip radii).map fun cr => ringFrame cr.1.1 cr.1.2 cr.2 I⟩
      centres).getD p []
      = radialProfileMasked W H (ringFrame centres[p].1 centres[p].2 radii[p] I)
          trivMask centres[p].1 centres[p].2 (profileLen W H centres) := by
    unfold radial_integration
    rw [List.getD_eq_getElem _ [] (by rw [List.length_map]; exact hp')]
    rw [List.getElem_map, List.getElem_zip, List.getElem_map, List.getElem_zip]
  obtain ⟨px, py, hpx, hpy, hrad⟩ := hring p hp
  rw [hgetc, hgetr] at hrad
  rw [hmain, hgetr]
  have hmemx : centres[p].1 ∈ centres.map Prod.fst :=
    List.mem_map_of_mem Prod.fst (centres.getElem_mem hp)
  have hmemy : centres[p].2 ∈ centres.map Prod.snd :=
    List.mem_map_of_mem Prod.snd (centres.getElem_mem hp)
  have hrle : radii[p] ≤ find_longest_distanceQ W H
      (qListMin (centres.map Prod.fst)) (qListMax (centres.map Prod.fst))
      (qListMin (centres.map Prod.snd)) (qListMax (centres.map Prod.snd)) := by
    rw [← hrad]
    exact intRadius_le_longest W H px py centres[p].1 centres[p].2 _ _ _ _ hpx hpy
      (qListMin_le _ _ hmemx) (le_qListMax _ _ hmemx)
      (qListMin_le _ _ hmemy) (le_qListMax _ _ hmemy)
  have hrlt : radii[p] < profileLen W H centres := by
    unfold profileLen
    omega
  exact ring_profile_argmax W H centres[p].1 centres[p].2 radii[p] I hI
    (profileLen W H centres) hrlt
    (binCountM_ne_zero W H px py centres[p].1 centres[p].2 radii[p] hpx hpy hrad)

/-- Witness for C1: a 6×6 dataset with two navigation positions, rings of
radius 2 around centre (2,2) and radius 3 around centre (3,3); the argmax of
the second position's profile is 3. -/
theorem radial_integration_ring_argmax_witness :
    listArgmax ((radial_integration
        ⟨6, 6, ([(((2 : ℚ)), ((2 : ℚ))), (3, 3)].zip [2, 3]).map
          fun cr => ringFrame cr.1.1 cr.1.2 cr.2 1⟩
        [(((2 : ℚ)), ((2 : ℚ))), (3, 3)]).getD 1 []) = [2, 3].getD 1 0 :=
  radial_integration_ring_argmax 6 6 1 [(((2 : ℚ)), ((2 : ℚ))), (3, 3)] [2, 3]
    (by norm_num) (by decide)
    (by
      intro p hp
      have hp2 : p < 2 := by simpa using hp
      interval_cases p
      · exact ⟨4, 2, by decide, by decide, by decide⟩
      · exact ⟨0, 3, by decide, by decide, by decide⟩)
    1 (by decide)

/-- Value of the radial profile at bin `k` of a frame that is uniformly `v`
on the mask-selected pixels: the value `v` in every populated bin (the mean,
not the raw sum), and the fill value `0` in bins no selected pixel maps to. -/
theorem radialProfileMasked_uniform_getD (W H : ℕ) (f : ℕ → ℕ → ℚ)
    (mask : ℕ → ℕ → Bool) (v cx cy : ℚ) (len k : ℕ) (hk : k < len)
    (hunif : ∀ px py, px < W → py < H → mask px py = true → f px py = v) :
    (radialProfileMasked W H f mask cx cy len).getD k 0 =
      if binCountM W H mask cx cy k = 0 then 0 else v := by
  unfold radialProfileMasked
  rw [getD_range_map _ _ _ hk]
  by_cases hc : binCountM W H mask cx cy k = 0
  · rw [if_pos hc, if_pos hc]
  · rw [if_neg hc, if_neg hc]
    have hsum : binSumM W H f mask cx cy k =
        v * (binCountM W H mask cx cy k : ℚ) := by
      unfold binSumM binCountM
      rw [List.countP_eq_length_filter]
      apply sum_map_const
      intro p hp
      have hmem := (List.mem_filter.mp hp).1
      have hmask := (List.mem_filter.mp hp).2
      unfold binPred at hmask
      simp only [Bool.and_eq_true, decide_eq_true_eq] at hmask
      have hb := (mem_pixList W H p.1 p.2).mp (by simpa using hmem)
      exact hunif p.1 p.2 hb.1 hb.2 hmask.2
    rw [hsum, mul_div_assoc, div_self (by exact_mod_cast hc), mul_one]

/-- Claim C2: on a uniform-intensity dataset (every pixel of every frame
equal to `v`), `radial_integration` returns the mean intensity per integer
radius, not the raw sum: every populated bin of every profile holds exactly
`v`, and only unpopulated bins (the final, partially covered ones) deviate,
holding the fill value `0`.  Concretely: a square 7×7 frame with the central
centre (3,3) yields `v` everywhere except one trailing bin, and a non-square
3×4 frame yields `v` everywhere except two trailing bins. -/
theorem radial_integration_uniform_mean :
    (∀ (ds : Dataset) (v : ℚ) (centres : List (ℚ × ℚ)),
      (∀ f ∈ ds.frames, ∀ px py, px < ds.W → py < ds.H → f px py = v) →
      ∀ p, p < ds.frames.length → p < centres.length →
      ∀ k, k < profileLen ds.W ds.H centres →
        ((radial_integration ds centres).getD p []).getD k 0 =
          if binCountM ds.W ds.H trivMask
              (centres.getD p (0, 0)).1 (centres.getD p (0, 0)).2 k = 0
          then 0 else v)
    ∧ radial_integration ⟨7, 7, [fun _ _ => 1]⟩ [(((3 : ℚ)), ((3 : ℚ)))]
        = [[1, 1, 1, 1, 1, 0]]
    ∧ radial_integration ⟨3, 4, [fun _ _ => 1]⟩ [(((0 : ℚ)), ((0 : ℚ)))]
        = [[1, 1, 1, 1, 0, 0]] := by
  refine ⟨?_, by decide, by decide⟩
  intro ds v centres hunif p hpf hpc k hk
  have hp1 : p < (ds.frames.zip centres).length := by
    rw [List.length_zip]
    exact lt_min hpf hpc
  have hmain : (radial_integration ds centres).getD p [] =
      radialProfileMasked ds.W ds.H ds.frames[p] trivMask
        centres[p].1 centres[p].2 (profileLen ds.W ds.H centres) := by
    unfold radial_integration
    rw [List.getD_eq_getElem _ [] (by rw [List.length_map]; exact hp1),
      List.getElem_map, List.getElem_zip]
  rw [hmain, List.getD_eq_getElem centres (0, 0) hpc]
  exact radialProfileMasked_uniform_getD ds.W ds.H ds.frames[p] trivMask v
    centres[p].1 centres[p].2 _ k hk
    (fun px py hx hy _ => hunif ds.frames[p] (ds.frames.getElem_mem hpf) px py hx hy)

/-- Witness for C2's general part: a 2×2 uniform dataset of value 5 has
profile value 5 at bin 0. -/
theorem radial_integration_uniform_mean_witness :
    ((radial_integration ⟨2, 2, [fun _ _ => 5]⟩ [(((0 : ℚ)), ((0 : ℚ)))]).getD 0 []).getD 0 0
      = 5 := by
  have h := radial_integration_uniform_mean.1 ⟨2, 2, [fun _ _ => 5]⟩ 5
    [(((0 : ℚ)), ((0 : ℚ)))]
    (by
      intro f hf px py _ _
      rcases List.mem_singleton.mp hf with rfl
      rfl)
    0 (by decide) (by decide) 0 (by decide)
  rw [h]
  decide

/-- Floored Euclidean length is monotone in each axis offset. -/
theorem natSqrt_corner_mono {x x' y y' : ℕ} (hx : x ≤ x') (hy : y ≤ y') :
    natSqrt (x ^ 2 + y ^ 2) ≤ natSqrt (x' ^ 2 + y' ^ 2) := by
  rw [natSqrt_eq, natSqrt_eq]
  exact Nat.sqrt_le_sqrt (Nat.add_le_add (Nat.pow_le_pow_left hx 2) (Nat.pow_le_pow_left hy 2))

/-- Claim C3: `find_longest_distance` is a safe upper bound: for admissible
centre ranges inside the image it dominates the floored Euclidean distance
from every centre in the range to each of the four image corners; on a 10×10
image it returns 14 for corner centres and 12 for centres one pixel in from a
corner; and for a single centre on a 100×100 image it equals the floored
distance to the farthest corner (the max over the four corners). -/
theorem find_longest_distance_spec :
    (∀ W H cxmin cxmax cymin cymax cx cy px py : ℕ,
      cxmin ≤ cx → cx ≤ cxmax → cxmax ≤ W →
      cymin ≤ cy → cy ≤ cymax → cymax ≤ H →
      (px = 0 ∨ px = W) → (py = 0 ∨ py = H) →
      natSqrt (cornerDistSq cx cy px py) ≤ find_longest_distance W H cxmin cxmax cymin cymax)
    ∧ (∀ cx cy : ℕ, (cx = 0 ∨ cx = 10) → (cy = 0 ∨ cy = 10) →
        find_longest_distance 10 10 cx cx cy cy = 14)
    ∧ (∀ cx cy : ℕ, (cx = 1 ∨ cx = 9) → (cy = 1 ∨ cy = 9) →
        find_longest_distance 10 10 cx cx cy cy = 12)
    ∧ (∀ cx cy : ℕ, cx ≤ 100 → cy ≤ 100 →
        find_longest_distance 100 100 cx cx cy cy =
          max (max (natSqrt (cornerDistSq cx cy 0 0)) (natSqrt (cornerDistSq cx cy 100 0)))
              (max (natSqrt (cornerDistSq cx cy 0 100)) (natSqrt (cornerDistSq cx cy 100 100)))) := by
  refine ⟨?_, ?_, ?_, ?_⟩
  · intro W H cxmin cxmax cymin cymax cx cy px py h1 h2 h3 h4 h5 h6 hpx hpy
    have hx : natDist cx px ≤ max cxmax (W - cxmin) := by
      rcases hpx with rfl | rfl
      · exact le_trans (by unfold natDist; omega) (le_max_left _ _)
      · exact le_trans (by unfold natDist; omega) (le_max_right _ _)
    have hy : natDist cy py ≤ max cymax (H - cymin) := by
      rcases hpy with rfl | rfl
      · exact le_trans (by unfold natDist; omega) (le_max_left _ _)
      · exact le_trans (by unfold natDist; omega) (le_max_right _ _)
    unfold cornerDistSq find_longest_distance
    exact natSqrt_corner_mono hx hy
  · intro cx cy h1 h2
    rcases h1 with rfl | rfl <;> rcases h2 with rfl | rfl <;> decide
  · intro cx cy h1 h2
    rcases h1 with rfl | rfl <;> rcases h2 with rfl | rfl <;> decide
  · intro cx cy hcx hcy
    unfold find_longest_distance cornerDistSq
    have e1 : natDist cx 0 = cx := by unfold natDist; omega
    have e2 : natDist cx 100 = 100 - cx := by unfold natDist; omega
    have e3 : natDist cy 0 = cy := by unfold natDist; omega
    have e4 : natDist cy 100 = 100 - cy := by unfold natDist; omega
    rw [e1, e2, e3, e4]
    rcases le_total cx (100 - cx) with h | h <;> rcases le_total cy (100 - cy) with h' | h'
    · rw [max_eq_right h, max_eq_right h']
      have m1 := natSqrt_corner_mono h h'
      have m2 := natSqrt_corner_mono (le_refl (100 - cx)) h'
      have m3 := natSqrt_corner_mono h (le_refl (100 - cy))
      omega
    · rw [max_eq_right h, max_eq_left h']
      have m1 := natSqrt_corner_mono h (le_refl cy)
      have m2 := natSqrt_corner_mono h h'
      have m3 := natSqrt_corner_mono (le_refl (100 - cx)) h'
      omega
    · rw [max_eq_left h, max_eq_right h']
      have m1 := natSqrt_corner_mono (le_refl cx) h'
      have m2 := natSqrt_corner_mono h h'
      have m3 := natSqrt_corner_mono h (le_refl (100 - cy))
      omega
    · rw [max_eq_left h, max_eq_left h']
      have m1 := natSqrt_corner_mono (le_refl cx) h'
      have m2 := natSqrt_corner_mono h (le_refl cy)
      have m3 := natSqrt_corner_mono h h'
      omega

/-- Witness for C3: concrete instances of all four parts. -/
theorem find_longest_distance_spec_witness :
    natSqrt (cornerDistSq 3 4 0 0) ≤ find_longest_distance 10 10 2 3 4 4
    ∧ find_longest_distance 10 10 0 0 0 0 = 14
    ∧ find_longest_distance 10 10 1 1 1 1 = 12
    ∧ find_longest_distance 100 100 30 30 40 40 =
        max (max (natSqrt (cornerDistSq 30 40 0 0)) (natSqrt (cornerDistSq 30 40 100 0)))
            (max (natSqrt (cornerDistSq 30 40 0 100)) (natSqrt (cornerDistSq 30 40 100 100))) :=
  ⟨find_longest_distance_spec.1 10 10 2 3 4 4 3 4 0 0 (by decide) (by decide) (by decide)
      (by decide) (by decide) (by decide) (Or.inl rfl) (Or.inl rfl),
    find_longest_distance_spec.2.1 0 0 (Or.inl rfl) (Or.inl rfl),
    find_longest_distance_spec.2.2.1 1 1 (Or.inl rfl) (Or.inl rfl),
    find_longest_distance_spec.2.2.2 30 40 (by decide) (by decide)⟩

/-! ## Frame reducer and defect engine -/

/-- Modelled from the spec: the intensity-weighted centroid of one frame
(§4.2): `x = Σ(I·px)/ΣI`, `y = Σ(I·py)/ΣI`; the zero-total-intensity
sentinel is `(0, 0)` (ℚ has no NaN). -/
def center_of_mass_frame (W H : ℕ) (f : ℕ → ℕ → ℚ) : ℚ × ℚ :=
  let tot := ((pixList W H).map fun p => f p.1 p.2).sum
  if tot = 0 then (0, 0)
  else ((((pixList W H).map fun p => f p.1 p.2 * p.1).sum) / tot,
        (((pixList W H).map fun p => f p.1 p.2 * p.2).sum) / tot)

/-- Modelled from the spec: `center_of_mass` applied per navigation
position (§4.2). -/
def center_of_mass (ds : Dataset) : List (ℚ × ℚ) :=
  ds.frames.map (center_of_mass_frame ds.W ds.H)

/-- A frame-shaped boolean mask (a result with navigation dimension 0). -/
structure BoolFrame where
  W : ℕ
  H : ℕ
  data : ℕ → ℕ → Bool

/-- Modelled from the spec: `find_dead_pixels(dataset, dead_pixel_value)`
(§4.4): pixels equal to `dead_pixel_value` in every navigation position are
flagged; the result is a single frame-shaped mask (navigation dimension 0)
whose shape is the trailing two (signal) dimensions of the input. -/
def find_dead_pixels (ds : Dataset) (dead_pixel_value : ℚ) : BoolFrame :=
  ⟨ds.W, ds.H, fun px py => ds.frames.all fun f => decide (f px py = dead_pixel_value)⟩

/-- Median of a list of rationals: middle element of the sorted list. -/
def qMedian (l : List ℚ) : ℚ := (l.insertionSort (· ≤ ·)).getD (l.length / 2) 0

/-- The 3×3 neighbourhood intensities around a pixel (window clipped at the
frame boundary). -/
def neighborhood (W H : ℕ) (f : ℕ → ℕ → ℚ) (px py : ℕ) : List ℚ :=
  ((pixList W H).filter fun p =>
    decide (natDist p.1 px ≤ 1) && decide (natDist p.2 py ≤ 1)).map fun p => f p.1 p.2

/-- Modelled from the spec: per-frame hot-pixel detection (§4.4): flag pixels
exceeding `threshold_multiplier` times the local-neighbourhood median. -/
def find_hot_pixels_frame (W H : ℕ) (threshold_multiplier : ℚ)
    (f : ℕ → ℕ → ℚ) : ℕ → ℕ → Bool :=
  fun px py =>
    decide (f px py > threshold_multiplier * qMedian (neighborhood W H f px py))

/-- Modelled from the spec: `find_hot_pixels` applied per navigation
position (§4.4). -/
def find_hot_pixels (ds : Dataset) (threshold_multiplier : ℚ) : List (ℕ → ℕ → Bool) :=
  ds.frames.map (find_hot_pixels_frame ds.W ds.H threshold_multiplier)

/-- Modelled from the spec: per-frame bad-pixel correction (§4.4): a flagged
pixel is replaced by the mean of its non-flagged immediate (4-connected)
neighbours; unflagged pixels are untouched. -/
def correct_frame (W H : ℕ) (mask : ℕ → ℕ → Bool) (f : ℕ → ℕ → ℚ) : ℕ → ℕ → ℚ :=
  fun px py =>
    if mask px py then
      let nb := ((pixList W H).filter fun p =>
        decide (natDist p.1 px + natDist p.2 py = 1) && !mask p.1 p.2).map
          fun p => f p.1 p.2
      if nb.length = 0 then 0 else nb.sum / (nb.length : ℚ)
    else f px py

/-- Modelled from the spec: `correct_bad_pixels` with a frame-shaped defect
mask broadcast across navigation (§4.4). -/
def correct_bad_pixels (ds : Dataset) (mask : ℕ → ℕ → Bool) : Dataset :=
  ⟨ds.W, ds.H, ds.frames.map (correct_frame ds.W ds.H mask)⟩

/-! ## Execution adapter

Modelled from the spec (§2, §5, §9): a chunked/deferred execution backend
splits the navigation list into chunks, maps the per-position pure function
over each chunk independently, and an explicit materialisation step
concatenates the chunk results. -/

/-- Split a list into chunks of size `n` (size 1 when `n = 0`). -/
def chunksOf (n : ℕ) : List α → List (List α)
  | [] => []
  | x :: xs => (x :: xs.take (n - 1)) :: chunksOf n (xs.drop (n - 1))
termination_by l => l.length
decreasing_by simp [List.length_drop]; omega

/-- Materialise a chunked result: concatenate the chunk outputs. -/
def materialize (c : List (List α)) : List α := c.flatten

/-- Deferred per-navigation-position map: map `f` over each chunk. -/
def lazyMapNav (n : ℕ) (f : α → β) (l : List α) : List (List β) :=
  (chunksOf n l).map (List.map f)

/-- Chunk-wise dead-pixel detection: each chunk produces a frame-shaped mask,
and the chunk masks are combined pointwise by conjunction. -/
def find_dead_pixels_chunked (n : ℕ) (ds : Dataset) (v : ℚ) : BoolFrame :=
  ⟨ds.W, ds.H, fun px py =>
    ((chunksOf n ds.frames).map fun ch => ch.all fun f => decide (f px py = v)).all id⟩

/-- Chunking loses no positions: concatenating the chunks restores the list. -/
theorem chunksOf_flatten {α : Type} (n : ℕ) (l : List α) : (chunksOf n l).flatten = l := by
  suffices h : ∀ m (l : List α), l.length = m → (chunksOf n l).flatten = l from h _ l rfl
  intro m
  induction m using Nat.strong_induction_on with
  | _ m ih =>
    intro l hl
    cases l with
    | nil => simp [chunksOf]
    | cons x xs =>
      rw [chunksOf]
      simp only [List.flatten_cons]
      rw [ih (xs.drop (n - 1)).length
        (by simp only [List.length_cons] at hl; simp [List.length_drop]; omega) _ rfl]
      rw [List.cons_append, List.take_append_drop]

/-- Materialising a deferred map equals the eager map. -/
theorem materialize_lazyMapNav {α β : Type} (n : ℕ) (f : α → β) (l : List α) :
    materialize (lazyMapNav n f l) = l.map f := by
  unfold materialize lazyMapNav
  rw [← List.map_flatten, chunksOf_flatten]

/-- `all` distributes over chunking. -/
theorem all_chunksOf {α : Type} (n : ℕ) (l : List α) (p : α → Bool) :
    ((chunksOf n l).map fun ch => ch.all p).all id = l.all p := by
  conv_rhs => rw [← chunksOf_flatten n l]
  generalize chunksOf n l = L
  induction L with
  | nil => simp
  | cons ch L ih => simp [List.all_append, ih, Bool.and_comm]

/-- Claim C4: for every operation of the engine (centre of mass, radial
integration with per-position centres, hot/dead defect detection, bad-pixel
correction) and every dataset, running the operation eagerly and running it
on a chunked/deferred representation of the same data and then materialising
produce identical outputs, with identical navigation extent (output length)
and identical frame-mask shape for the dead-pixel reduction. -/
theorem lazy_execution_equivalence (n : ℕ) (ds : Dataset) (centres : List (ℚ × ℚ))
    (v tm : ℚ) (dmask : ℕ → ℕ → Bool) :
    (materialize (lazyMapNav n (center_of_mass_frame ds.W ds.H) ds.frames)
        = center_of_mass ds)
    ∧ (materialize (lazyMapNav n
        (fun fc => radialProfileMasked ds.W ds.H fc.1 trivMask fc.2.1 fc.2.2
          (profileLen ds.W ds.H centres))
        (ds.frames.zip centres)) = radial_integration ds centres)
    ∧ (∀ px py, (find_dead_pixels_chunked n ds v).data px py
        = (find_dead_pixels ds v).data px py)
    ∧ (find_dead_pixels_chunked n ds v).W = (find_dead_pixels ds v).W
    ∧ (find_dead_pixels_chunked n ds v).H = (find_dead_pixels ds v).H
    ∧ (materialize (lazyMapNav n (find_hot_pixels_frame ds.W ds.H tm) ds.frames)
        = find_hot_pixels ds tm)
    ∧ (materialize (lazyMapNav n (correct_frame ds.W ds.H dmask) ds.frames)
        = (correct_bad_pixels ds dmask).frames)
    ∧ (materialize (lazyMapNav n (center_of_mass_frame ds.W ds.H) ds.frames)).length
        = ds.frames.length := by
  refine ⟨materialize_lazyMapNav n _ _, materialize_lazyMapNav n _ _,
    fun px py => all_chunksOf n ds.frames _, rfl, rfl,
    materialize_lazyMapNav n _ _, materialize_lazyMapNav n _ _, ?_⟩
  rw [materialize_lazyMapNav, List.length_map]

/-! ## Angular sector masks

The repository's tests (`test_get_angle_sector_mask_0d`,
`test_get_angle_sector_mask_simple`) pin the angle convention: the sector
`[0, π/2)` is true exactly on the pixels up-left of the centre
(`px < cx` and `py < cy`), i.e. the pixel angle is
`arctan2(dy, dx) + π`, wrapped into `[0, 2π)` — the angle of the vector
pointing from the pixel to the centre. -/

/-- The quarter `[k·π/2, (k+1)·π/2)` containing the pixel angle
`arctan2(dy, dx) + π` (wrapped into `[0, 2π)`), decided by the signs of the
pixel-to-centre vector `(u, v) = (-dx, -dy)`; the centre pixel itself
(`dx = dy = 0`, where `arctan2(0,0) = 0`) gets quarter 2. -/
def quarterIndex (dx dy : ℚ) : ℕ :=
  if 0 < -dx ∧ 0 ≤ -dy then 0
  else if 0 < -dy then 1
  else if -dx < 0 then 2
  else if -dy < 0 then 3
  else 2

/-- Modelled from the spec: the angular-sector membership test (§4.1) for
sector bounds given in quarter turns, `[a·π/2, b·π/2)`: true when the pixel
angle's quarter index lies in `[a, b)`; an interval of width ≥ 2π selects
every pixel. -/
def sectorMaskQ (a b : ℕ) (dx dy : ℚ) : Bool :=
  decide (4 ≤ b - a) ||
    (decide (a ≤ quarterIndex dx dy) && decide (quarterIndex dx dy < b))

/-- Modelled from the spec: `angular_mask(angle0, angle1)` for quarter-turn
bounds `a·π/2` and `b·π/2`, relative to a centre `(cx, cy)`. -/
def angular_mask (a b : ℕ) (cx cy : ℚ) : ℕ → ℕ → Bool :=
  fun px py => sectorMaskQ a b ((px : ℚ) - cx) ((py : ℚ) - cy)

/-- A 4×4 frame lit (value 1) exactly on its up-left 2×2 quadrant. -/
def quadFrame : ℕ → ℕ → ℚ := fun px py => if px < 2 ∧ py < 2 then 1 else 0

/-- The boolean mask that is true exactly on the up-left 2×2 quadrant. -/
def quadMask : ℕ → ℕ → Bool := fun px py => decide (px < 2 ∧ py < 2)

/-- Modelled from the spec's claim wording ("`True` = pixel excluded from a
reduction"): radial integration in which mask-true pixels are REMOVED before
accumulation — the complement-selection semantics. -/
def radialProfileMaskedExcl (W H : ℕ) (f : ℕ → ℕ → ℚ) (mask : ℕ → ℕ → Bool)
    (cx cy : ℚ) (len : ℕ) : List ℚ :=
  radialProfileMasked W H f (fun px py => !mask px py) cx cy len

/-- Claim C5 counterexample: on a 4×4 frame whose intensity (value 1) lives
exactly on the up-left quadrant, `radial_integration` with a mask that is
true exactly on that quadrant KEEPS the quadrant's intensity (bin 0 of the
profile holds 1), whereas the exclusion semantics stated by the claim would
remove it (bin 0 would hold 0). -/
theorem radial_integration_mask_counterexample :
    ((radial_integration_masked ⟨4, 4, [quadFrame]⟩ [((3 : ℚ)/2, (3 : ℚ)/2)]
        [quadMask]).getD 0 []).getD 0 0 = 1
    ∧ (radialProfileMaskedExcl 4 4 quadFrame quadMask ((3 : ℚ)/2) ((3 : ℚ)/2)
        (profileLen 4 4 [((3 : ℚ)/2, (3 : ℚ)/2)])).getD 0 0 = 0 := by
  exact ⟨by decide, by decide⟩

/-- Claim C5 (amended): the boolean `mask_array` supplied to radial
integration SELECTS pixels (`true` = included in the accumulation, as pinned
by `test_get_angle_sector_mask_radial_integration1`): the profile depends
only on the mask-true pixels, and per-bin counts and means are taken over
the mask-true pixels — a frame uniformly `v` on the selected pixels yields
the mean `v` in every populated bin regardless of the unselected pixels. -/
theorem radial_integration_mask_selects
    (W H : ℕ) (f g : ℕ → ℕ → ℚ) (mask : ℕ → ℕ → Bool) (cx cy v : ℚ) (len : ℕ) :
    ((∀ px py, px < W → py < H → mask px py = true → f px py = g px py) →
      radialProfileMasked W H f mask cx cy len
        = radialProfileMasked W H g mask cx cy len)
    ∧ ((∀ px py, px < W → py < H → mask px py = true → f px py = v) →
      ∀ k, k < len → binCountM W H mask cx cy k ≠ 0 →
        (radialProfileMasked W H f mask cx cy len).getD k 0 = v) := by
  constructor
  · intro hagree
    unfold radialProfileMasked
    apply List.map_congr_left
    intro k _
    have hsum : binSumM W H f mask cx cy k = binSumM W H g mask cx cy k := by
      unfold binSumM
      apply congrArg List.sum
      apply List.map_congr_left
      intro p hp
      have hmem := (List.mem_filter.mp hp).1
      have hmask := (List.mem_filter.mp hp).2
      unfold binPred at hmask
      simp only [Bool.and_eq_true, decide_eq_true_eq] at hmask
      have hb := (mem_pixList W H p.1 p.2).mp (by simpa using hmem)
      exact hagree p.1 p.2 hb.1 hb.2 hmask.2
    rw [hsum]
  · intro hunif k hk hc
    rw [radialProfileMasked_uniform_getD W H f mask v cx cy len k hk hunif, if_neg hc]

/-- Witness for C5's amended theorem: the quadrant frame through the
quadrant-selection mask yields mean 1 at bin 0. -/
theorem radial_integration_mask_selects_witness :
    (radialProfileMasked 4 4 quadFrame quadMask ((3 : ℚ)/2) ((3 : ℚ)/2) 4).getD 0 0 = 1 :=
  (radial_integration_mask_selects 4 4 quadFrame quadFrame quadMask
      ((3 : ℚ)/2) ((3 : ℚ)/2) 1 4).2
    (by
      intro px py _ _ hm
      unfold quadMask at hm
      unfold quadFrame
      simp only [decide_eq_true_eq] at hm
      rw [if_pos hm])
    0 (by decide) (by decide)

/-- Modelled from the spec's claim wording for C6: "the fourth quadrant in
array-index space (y increases downward)" under the spec's §3 angle
convention (0 at the +x axis, increasing with y): the sector
`[3π/2, 2π)`, i.e. `cx < px` and `py < cy`. -/
def inFourthQuadrant (px py : ℕ) (cx cy : ℚ) : Prop :=
  cx < (px : ℚ) ∧ (py : ℚ) < cy

/-- Claim C6 counterexample: with the interior centre (4.5, 4.5) of a 10×10
frame, the sector mask for `[0, π/2)` is true at pixel (0,0) — which is NOT
in the fourth quadrant — and false at pixel (9,0), which IS in the fourth
quadrant.  The sector `[0, π/2)` therefore does not coincide with the fourth
quadrant. -/
theorem angular_mask_counterexample :
    angular_mask 0 1 ((9 : ℚ)/2) ((9 : ℚ)/2) 0 0 = true
    ∧ ¬ inFourthQuadrant 0 0 ((9 : ℚ)/2) ((9 : ℚ)/2)
    ∧ inFourthQuadrant 9 0 ((9 : ℚ)/2) ((9 : ℚ)/2)
    ∧ angular_mask 0 1 ((9 : ℚ)/2) ((9 : ℚ)/2) 9 0 = false := by
  refine ⟨by decide, ?_, ?_, by decide⟩
  · unfold inFourthQuadrant
    intro h
    have := h.1
    norm_num at this
  · unfold inFourthQuadrant
    constructor <;> norm_num

/-- The angle's quarter is 0 exactly when the pixel lies strictly left of
and weakly above the centre. -/
theorem quarterIndex_eq_zero_iff (dx dy : ℚ) :
    quarterIndex dx dy = 0 ↔ dx < 0 ∧ dy ≤ 0 := by
  unfold quarterIndex
  split_ifs with h1 h2 h3 h4
  · exact iff_of_true rfl ⟨by linarith [h1.1], by linarith [h1.2]⟩
  · exact iff_of_false (by decide) fun h => h1 ⟨by linarith [h.1], by linarith [h.2]⟩
  · exact iff_of_false (by decide) fun h => h1 ⟨by linarith [h.1], by linarith [h.2]⟩
  · exact iff_of_false (by decide) fun h => h1 ⟨by linarith [h.1], by linarith [h.2]⟩
  · exact iff_of_false (by decide) fun h => h1 ⟨by linarith [h.1], by linarith [h.2]⟩

/-- Claim C6 (amended): for any centre, the angular sector mask for
`angle0 = 0, angle1 = π/2` is true exactly on the quadrant up-left of the
centre in array-index space — the pixels with `px < cx` and `py < cy` (for
pixels off the horizontal line through the centre; the implementation's
angle is the spec convention's angle offset by π).  The convention is
uniform for every sector: for each quarter-turn sector `[a·π/2, (a+1)·π/2)`
the mask is true exactly on the pixels whose angle quarter index is `a`. -/
theorem angular_mask_quadrant (px py : ℕ) (cx cy : ℚ) (a : ℕ) :
    (((py : ℚ) ≠ cy) →
      (angular_mask 0 1 cx cy px py = true ↔ ((px : ℚ) < cx ∧ (py : ℚ) < cy)))
    ∧ (a < 4 →
      (angular_mask a (a + 1) cx cy px py = true ↔
        quarterIndex ((px : ℚ) - cx) ((py : ℚ) - cy) = a)) := by
  have hgen : ∀ b, b < 4 →
      (angular_mask b (b + 1) cx cy px py = true ↔
        quarterIndex ((px : ℚ) - cx) ((py : ℚ) - cy) = b) := by
    intro b hb
    unfold angular_mask sectorMaskQ
    have h4 : ¬ (4 ≤ (b + 1) - b) := by omega
    simp only [Bool.or_eq_true, Bool.and_eq_true, decide_eq_true_eq]
    constructor
    · rintro (habs | ⟨hle, hlt⟩)
      · exact absurd habs h4
      · omega
    · intro h
      exact Or.inr ⟨by omega, by omega⟩
  constructor
  · intro hne
    rw [hgen 0 (by norm_num), quarterIndex_eq_zero_iff]
    constructor
    · rintro ⟨h1, h2⟩
      refine ⟨by linarith, ?_⟩
      rcases lt_or_eq_of_le (by linarith : (py : ℚ) ≤ cy) with h | h
      · exact h
      · exact absurd h hne
    · rintro ⟨h1, h2⟩
      exact ⟨by linarith, by linarith⟩
  · intro ha
    exact hgen a ha

/-- Witness for C6's amended theorem: both parts at the centre (4.5, 4.5). -/
theorem angular_mask_quadrant_witness :
    (angular_mask 0 1 ((9 : ℚ)/2) ((9 : ℚ)/2) 1 2 = true ↔
      (((1 : ℕ) : ℚ) < (9 : ℚ)/2 ∧ ((2 : ℕ) : ℚ) < (9 : ℚ)/2))
    ∧ (angular_mask 2 3 ((9 : ℚ)/2) ((9 : ℚ)/2) 7 7 = true ↔
      quarterIndex (((7 : ℕ) : ℚ) - (9 : ℚ)/2) (((7 : ℕ) : ℚ) - (9 : ℚ)/2) = 2) :=
  ⟨(angular_mask_quadrant 1 2 ((9 : ℚ)/2) ((9 : ℚ)/2) 2).1 (by norm_num),
    (angular_mask_quadrant 7 7 ((9 : ℚ)/2) ((9 : ℚ)/2) 2).2 (by norm_num)⟩

/-! ## Error taxonomy, threshold_and_mask, angular slices -/

/-- Modelled from the spec (§7): the two error kinds the engine raises at
call time — parameter/shape validation failures (`ValueError`) and
capability/unsupported-mode failures (`NotImplementedError`). -/
inductive EngineError where
  | valueError
  | notImplemented
deriving DecidableEq

/-- A dataset together with its execution mode: `lazy = true` means the
underlying array is a chunked/deferred representation. -/
structure Signal where
  lazy : Bool
  ds : Dataset

/-- Modelled from the spec + tests: per-frame `threshold_and_mask` (§4.2).
A disk mask `(cx, cy, r)` zeroes pixels outside the disk; a scalar
threshold binarises the frame — pixels strictly above `threshold × mean`
of the (masked) frame become 1 and all others 0 (the repository's tests
`TestPixelatedSTEMThresholdAndMask` pin the mean-relative cutoff and the
0/1 output). -/
def threshold_and_mask_frame (W H : ℕ) (f : ℕ → ℕ → ℚ)
    (threshold : Option ℚ) (mask : Option (ℕ × ℕ × ℕ)) : ℕ → ℕ → ℚ :=
  let g : ℕ → ℕ → ℚ :=
    match mask with
    | none => f
    | some (cx, cy, r) => fun px py =>
        if ((px : ℤ) - cx) ^ 2 + ((py : ℤ) - cy) ^ 2 ≤ (r : ℤ) ^ 2 then f px py else 0
  match threshold with
  | none => g
  | some t =>
      let m := (((pixList W H).map fun p => g p.1 p.2).sum) / ((W * H : ℕ) : ℚ)
      fun px py => if g px py > t * m then 1 else 0

/-- Modelled from the spec + tests: `threshold_and_mask` (§4.2); invoked on
a lazy signal it fails with the capability error (`NotImplementedError`),
as pinned by `TestPixelatedSTEMThresholdAndMask.test_lazy_exception`. -/
def threshold_and_mask (s : Signal) (threshold : Option ℚ)
    (mask : Option (ℕ × ℕ × ℕ)) : Except EngineError Dataset :=
  if s.lazy = true then .error .notImplemented
  else .ok ⟨s.ds.W, s.ds.H,
    s.ds.frames.map fun f => threshold_and_mask_frame s.ds.W s.ds.H f threshold mask⟩

/-- An order-preserving rational pseudo-angle in `[0, 4)` (quarter-turn
units), exact at quarter boundaries: `quarterIndex` plus a monotone
within-quarter fraction of the pixel-to-centre direction. -/
def pseudoAngle (dx dy : ℚ) : ℚ :=
  let u := -dx
  let v := -dy
  if 0 < u ∧ 0 ≤ v then v / (u + v)
  else if 0 < v then 1 + (-u) / (v - u)
  else if u < 0 then 2 + (-v) / (-u - v)
  else if v < 0 then 3 + u / (u - v)
  else 2

/-- Membership of a pseudo-angle in the wedge `[lo, hi)`, modulo one full
turn (4 quarter units). -/
def wedgeMember (t lo hi : ℚ) : Bool :=
  decide ((t - lo) - 4 * ⌊(t - lo) / 4⌋ < hi - lo)

/-- Modelled from the spec: `angular_slice_radial_integration` (§4.3).
`slice_overlap` outside `[0, 1)` is rejected with a ValueError before any
computation; otherwise `[0, 2π)` is partitioned into `angleN` wedges, each
widened symmetrically by `slice_overlap` of one wedge width, and each wedge
yields the masked radial profile of every navigation position. -/
def angular_slice_radial_integration (ds : Dataset) (centres : List (ℚ × ℚ))
    (angleN : ℕ) (slice_overlap : ℚ) :
    Except EngineError (List (List (List ℚ))) :=
  if slice_overlap < 0 ∨ 1 ≤ slice_overlap then .error .valueError
  else .ok <|
    (List.range angleN).map fun i =>
      let w := 4 / (angleN : ℚ)
      let lo := (i : ℚ) * w - slice_overlap * w / 2
      let hi := ((i : ℚ) + 1) * w + slice_overlap * w / 2
      (ds.frames.zip centres).map fun fc =>
        radialProfileMasked ds.W ds.H fc.1
          (fun px py =>
            wedgeMember (pseudoAngle ((px : ℚ) - fc.2.1) ((py : ℚ) - fc.2.2)) lo hi)
          fc.2.1 fc.2.2 (profileLen ds.W ds.H centres)

/-- Claim C8: `angular_slice_radial_integration` rejects every
`slice_overlap` outside `[0, 1)` — in particular 1.2 and −0.2 — with an
input-validation error (the call returns the ValueError, producing no
profiles), and accepts every value inside `[0, 1)`. -/
theorem angular_slice_overlap_validation (ds : Dataset) (centres : List (ℚ × ℚ))
    (angleN : ℕ) :
    (∀ ov : ℚ, (ov < 0 ∨ 1 ≤ ov) →
      angular_slice_radial_integration ds centres angleN ov
        = .error EngineError.valueError)
    ∧ angular_slice_radial_integration ds centres angleN ((6 : ℚ)/5)
        = .error EngineError.valueError
    ∧ angular_slice_radial_integration ds centres angleN (-(1 : ℚ)/5)
        = .error EngineError.valueError
    ∧ (∀ ov : ℚ, 0 ≤ ov → ov < 1 →
      ∃ out, angular_slice_radial_integration ds centres angleN ov = .ok out) := by
  have herr : ∀ ov : ℚ, (ov < 0 ∨ 1 ≤ ov) →
      angular_slice_radial_integration ds centres angleN ov
        = .error EngineError.valueError := by
    intro ov hov
    unfold angular_slice_radial_integration
    rw [if_pos hov]
  refine ⟨herr, herr _ (Or.inr (by norm_num)), herr _ (Or.inl (by norm_num)), ?_⟩
  intro ov h0 h1
  unfold angular_slice_radial_integration
  rw [if_neg (by push_neg; exact ⟨h0, h1⟩)]
  exact ⟨_, rfl⟩

/-- Witness for C8: a value outside the range is rejected and one inside is
accepted, on a concrete 1×1 dataset. -/
theorem angular_slice_overlap_validation_witness :
    angular_slice_radial_integration ⟨1, 1, [fun _ _ => 0]⟩ [((0 : ℚ), (0 : ℚ))] 2 2
        = .error EngineError.valueError
    ∧ ∃ out, angular_slice_radial_integration ⟨1, 1, [fun _ _ => 0]⟩
        [((0 : ℚ), (0 : ℚ))] 2 ((1 : ℚ)/2) = .ok out :=
  ⟨(angular_slice_overlap_validation ⟨1, 1, [fun _ _ => 0]⟩
      [((0 : ℚ), (0 : ℚ))] 2).1 2 (Or.inr (by norm_num)),
    (angular_slice_overlap_validation ⟨1, 1, [fun _ _ => 0]⟩
      [((0 : ℚ), (0 : ℚ))] 2).2.2.2 ((1 : ℚ)/2) (by norm_num) (by norm_num)⟩

/-- Claim C9: invoking `threshold_and_mask` on a lazy (deferred/chunked)
signal fails with the capability error `NotImplementedError`, which is a
distinct error kind from the `ValueError` raised by parameter validation
(such as `angular_slice_radial_integration`'s `slice_overlap` check), so
callers can tell an unsupported input mode apart from bad arguments. -/
theorem threshold_and_mask_lazy_error (s : Signal) (t : Option ℚ)
    (m : Option (ℕ × ℕ × ℕ)) :
    (s.lazy = true →
      threshold_and_mask s t m = .error EngineError.notImplemented)
    ∧ EngineError.notImplemented ≠ EngineError.valueError
    ∧ (∀ ds centres angleN (ov : ℚ), ov < 0 ∨ 1 ≤ ov →
        angular_slice_radial_integration ds centres angleN ov
          = .error EngineError.valueError) := by
  refine ⟨?_, by decide, ?_⟩
  · intro hl
    unfold threshold_and_mask
    rw [if_pos hl]
  · intro ds centres angleN ov hov
    unfold angular_slice_radial_integration
    rw [if_pos hov]

/-- Witness for C9: a concrete lazy signal is rejected with the
capability error. -/
theorem threshold_and_mask_lazy_error_witness :
    threshold_and_mask ⟨true, ⟨1, 1, [fun _ _ => 0]⟩⟩ none none
      = .error EngineError.notImplemented :=
  (threshold_and_mask_lazy_error ⟨true, ⟨1, 1, [fun _ _ => 0]⟩⟩ none none).1 rfl

/-- Claim C7: `find_dead_pixels` flags exactly the pixels that equal
`dead_pixel_value` at every navigation position; with a value held by no
pixel the mask is all-false; and the result is a single frame-shaped mask
(navigation dimension 0) whose shape equals the trailing two (frame)
dimensions of the input dataset. -/
theorem find_dead_pixels_spec (ds : Dataset) (v v' : ℚ) :
    ((find_dead_pixels ds v).W = ds.W ∧ (find_dead_pixels ds v).H = ds.H)
    ∧ (∀ px py, (find_dead_pixels ds v).data px py = true ↔
        ∀ f ∈ ds.frames, f px py = v)
    ∧ (ds.frames ≠ [] →
      (∀ f ∈ ds.frames, ∀ px py, px < ds.W → py < ds.H → f px py ≠ v') →
      ∀ px py, px < ds.W → py < ds.H →
        (find_dead_pixels ds v').data px py = false) := by
  refine ⟨⟨rfl, rfl⟩, ?_, ?_⟩
  · intro px py
    unfold find_dead_pixels
    simp [List.all_eq_true]
  · intro hne hnz px py hx hy
    show ds.frames.all (fun f => decide (f px py = v')) = false
    rcases hl : ds.frames with _ | ⟨f, fs⟩
    · exact absurd hl hne
    · have hv : f px py ≠ v' :=
        hnz f (by rw [hl]; exact List.mem_cons_self f fs) px py hx hy
      simp [List.all_cons, hv]

/-- Witness for C7: a one-frame all-zero 2×2 dataset searched for the dead
value 7 yields a false mask entry. -/
theorem find_dead_pixels_spec_witness :
    (find_dead_pixels ⟨2, 2, [fun _ _ => 0]⟩ 7).data 0 0 = false :=
  (find_dead_pixels_spec ⟨2, 2, [fun _ _ => 0]⟩ 0 7).2.2
    (by exact List.cons_ne_nil _ _)
    (by
      intro f hf px py _ _
      rcases List.mem_singleton.mp hf with rfl
      norm_num)
    0 0 (by norm_num) (by norm_num)

/-- A 2×2 frame with a dominant spike of 1000000 at (0,0) and a smaller
value 10 at (1,0). -/
def spikeFrame : ℕ → ℕ → ℚ := fun px py =>
  if px = 0 ∧ py = 0 then 1000000 else if px = 1 ∧ py = 0 then 10 else 0

/-- Claim C10: with a scalar threshold, every pixel of `threshold_and_mask`'s
output is 0 or exactly 1 — the indicator of the retained-pixel set, not the
input intensities cut at an absolute level.  Retained pixels become 1
regardless of magnitude, and pixels whose raw value exceeds the scalar
threshold may still be zeroed, because the cutoff is `threshold × mean frame
intensity`: on a 2×2 frame holding 1000000 and 10, with threshold 1, the
1000000-pixel maps to exactly 1 while the 10-pixel (despite 10 > 1) maps
to 0. -/
theorem threshold_and_mask_binarises (s : Signal) (t : ℚ)
    (m : Option (ℕ × ℕ × ℕ)) (out : Dataset) :
    (s.lazy = false → threshold_and_mask s (some t) m = .ok out →
      ∀ f ∈ out.frames, ∀ px py, f px py = 0 ∨ f px py = 1)
    ∧ threshold_and_mask_frame 2 2 spikeFrame (some 1) none 0 0 = 1
    ∧ threshold_and_mask_frame 2 2 spikeFrame (some 1) none 1 0 = 0
    ∧ spikeFrame 1 0 > 1 ∧ spikeFrame 0 0 = 1000000 := by
  refine ⟨?_, by decide, by decide, by decide, by decide⟩
  intro hl hok f hf px py
  unfold threshold_and_mask at hok
  rw [if_neg (by rw [hl]; simp)] at hok
  have hout := Except.ok.inj hok
  rw [← hout] at hf
  simp only [List.mem_map] at hf
  obtain ⟨g, _, rfl⟩ := hf
  unfold threshold_and_mask_frame
  dsimp only
  split
  · exact Or.inr rfl
  · exact Or.inl rfl

/-- Witness for C10's general part: the spike frame through the eager path
yields a 0-or-1 pixel. -/
theorem threshold_and_mask_binarises_witness :
    threshold_and_mask_frame 2 2 spikeFrame (some 1) none 1 0 = 0
    ∨ threshold_and_mask_frame 2 2 spikeFrame (some 1) none 1 0 = 1 :=
  (threshold_and_mask_binarises ⟨false, ⟨2, 2, [spikeFrame]⟩⟩ 1 none
      ⟨2, 2, [threshold_and_mask_frame 2 2 spikeFrame (some 1) none]⟩).1
    rfl rfl (threshold_and_mask_frame 2 2 spikeFrame (some 1) none)
    (List.mem_singleton.mpr rfl) 1 0

end Pixstem
